import Mathlib

/-!
# Verification of the moldb-api storage abstraction layer

Shallow embedding of the dual-backend molecule store:

* `src/src/moldb/core/lmdb.py` — `LMDBMoleculeStore` (ordered KV engine);
* `src/src/moldb/core/sqlite.py` — `SQLiteMoleculeStore` (relational engine);
* `src/build_lmdb.py` and `src/src/moldb/builder/sqlite.py` — the bulk loaders.

Keys and contents are Python `str` values, encoded to UTF-8 bytes on write and
decoded on read; UTF-8 encode/decode is a bijection on valid strings, so both
are modelled directly as Lean `String`s.  The persistent state of either engine
is modelled as an association list `List (String × String)`: for LMDB this is
the key→value map held by the environment, for SQLite it is the list of rows of
the `molecules(inchi TEXT PRIMARY KEY, content TEXT NOT NULL)` table.
-/

namespace MolDB

/-- One stored record: `(key, content)` — a row of the SQLite table, or one
key/value binding of the LMDB map. -/
abbrev Rec := String × String

/-- First binding of `key` in the list (SQLite `SELECT ... WHERE inchi=?`
followed by `fetchone`, and the LMDB map lookup `txn.get`). -/
def findA : List Rec → String → Option String
  | [], _ => none
  | p :: rest, key => if p.1 = key then some p.2 else findA rest key

/-- Remove every binding of `key` (SQLite `DELETE FROM molecules WHERE
inchi=?`, and the LMDB map deletion `txn.delete`). -/
def eraseA : List Rec → String → List Rec
  | [], _ => []
  | p :: rest, key => if p.1 = key then eraseA rest key else p :: eraseA rest key

/-- Bind `key` to `v`, replacing any previous binding: the LMDB `txn.put`
map update, and SQLite `INSERT OR REPLACE` (the conflicting row is deleted and
the fresh row inserted). -/
def putA (l : List Rec) (key v : String) : List Rec :=
  eraseA l key ++ [(key, v)]

/-- Whether some binding of `key` exists. -/
def hasKeyA (l : List Rec) (key : String) : Bool :=
  (findA l key).isSome

/-- Number of records carrying `key`. -/
def countKey : List Rec → String → Nat
  | [], _ => 0
  | p :: rest, key => (if p.1 = key then 1 else 0) + countKey rest key

/-- Each key occurs on at most one record — the SQLite `PRIMARY KEY`
invariant, automatic for the LMDB map. -/
def keysUnique : List Rec → Bool
  | [] => true
  | p :: rest => !(hasKeyA rest p.1) && keysUnique rest

/-! ## Ordered KV engine (`LMDBMoleculeStore`, src/src/moldb/core/lmdb.py) -/

/-- `get_by_inchi` (lines 43–55): opens a read transaction, fetches the raw
bytes, and returns `data.decode() if data else None`.  Python's truthiness test
is false both for `None` (key absent) and for the empty byte string `b""`
(key present with empty content), so a stored empty content decodes to `None`. -/
def lmdbGet (st : List Rec) (inchi : String) : Option String :=
  match findA st inchi with
  | some v => if v = "" then none else some v
  | none => none

/-- `get_by_inchi` with the environment state passed explicitly: the
`with self.env.begin() as txn` block opens a read-only transaction, which
cannot write, so the environment after the call is the environment before. -/
def lmdbGetOp (st : List Rec) (inchi : String) : Option String × List Rec :=
  (lmdbGet st inchi, st)

/-- `get_many_by_inchi` (lines 57–73): one read transaction, one `txn.get`
per requested key in input order, appending `(inchi, content)` with the same
truthiness test as `get_by_inchi`. -/
def lmdbGetMany (st : List Rec) : List String → List (String × Option String)
  | [] => []
  | inchi :: rest => (inchi, lmdbGet st inchi) :: lmdbGetMany st rest

/-- `get_many_by_inchi` with the environment state passed explicitly: the read
transaction performs no writes. -/
def lmdbGetManyOp (st : List Rec) (inchis : List String) :
    List (String × Option String) × List Rec :=
  (lmdbGetMany st inchis, st)

/-- `put` (lines 75–87): one write transaction containing a single
`txn.put(key, value)`, which overwrites any previous value and returns `True`. -/
def lmdbPut (st : List Rec) (inchi content : String) : Bool × List Rec :=
  (true, putA st inchi content)

/-- `delete` (lines 106–117): one write transaction containing
`txn.delete(key)`, which returns `True` when the key was present and removed,
`False` when it was absent. -/
def lmdbDelete (st : List Rec) (inchi : String) : Bool × List Rec :=
  (hasKeyA st inchi, eraseA st inchi)

/-- One element produced while iterating the `items` argument of `put_many`:
either a `(key, content)` pair that encodes and applies cleanly, or an element
whose processing raises (an encoding error, a full-map write error, or an
exception from the iterable itself). -/
abbrev Item := Except Unit Rec

/-- Whether processing this item raises. -/
def isErr : Item → Bool
  | Except.error _ => true
  | Except.ok _ => false

/-- The loop body of LMDB `put_many` (lines 89–104) inside the write
transaction: `for inchi, content in items: txn.put(...); count += 1`.
The first raising item aborts the loop with the exception pending. -/
def lmdbPutManyGo (st : List Rec) (count : Nat) :
    List Item → Except Unit (Nat × List Rec)
  | [] => Except.ok (count, st)
  | Except.error e :: _ => Except.error e
  | Except.ok p :: rest => lmdbPutManyGo (putA st p.1 p.2) (count + 1) rest

/-- `put_many`: the whole loop runs inside `with self.env.begin(write=True)`.
On normal completion the context manager commits the transaction and `count`
is returned; on an exception it aborts the transaction — the environment keeps
its pre-call state — and the exception propagates to the caller. -/
def lmdbPutMany (st : List Rec) (items : List Item) :
    Except Unit Nat × List Rec :=
  match lmdbPutManyGo st 0 items with
  | Except.ok (n, st2) => (Except.ok n, st2)
  | Except.error e => (Except.error e, st)

/-! ## Relational engine (`SQLiteMoleculeStore`, src/src/moldb/core/sqlite.py) -/

/-- `get_by_inchi` (lines 74–89): `SELECT content FROM molecules WHERE
inchi=?` then `fetchone`; `row[0] if row else None`.  The truthiness test is
on the row tuple, which is non-empty whenever a row matched, so an empty
content string is returned as-is. -/
def sqliteGet (st : List Rec) (inchi : String) : Option String :=
  findA st inchi

/-- `get_by_inchi` with the table state passed explicitly: a `SELECT` writes
nothing. -/
def sqliteGetOp (st : List Rec) (inchi : String) : Option String × List Rec :=
  (sqliteGet st inchi, st)

/-- The rows returned by `SELECT inchi, content FROM molecules WHERE inchi IN
(...)`: every row whose key occurs among the requested keys. -/
def rowsIn : List Rec → List String → List Rec
  | [], _ => []
  | p :: rest, keys => if p.1 ∈ keys then p :: rowsIn rest keys else rowsIn rest keys

/-- Lookup in the Python dict built by `{row[0]: row[1] for row in results}`:
insertion order with overwrite on duplicate keys, so the last matching row
wins — equivalently, the first binding of the reversed row list. -/
def dictGet (rows : List Rec) (key : String) : Option String :=
  findA rows.reverse key

/-- `get_many_by_inchi` (lines 31–56): an empty request returns `[]` before
any SQL is issued; otherwise one `IN (...)` query fetches the matching rows, a
dict is built from them, and the output is reassembled in request order
(duplicates included) via `result_dict.get(inchi)`, which yields `None` for
missing keys and the stored string — empty or not — for present ones. -/
def sqliteGetMany (st : List Rec) (inchis : List String) :
    List (String × Option String) :=
  if inchis.isEmpty then []
  else
    let results := rowsIn st inchis
    inchis.map (fun inchi => (inchi, dictGet results inchi))

/-- `get_many_by_inchi` with the table state passed explicitly, also counting
the `conn.execute` query calls issued: zero on the early-return branch for an
empty request, one otherwise.  A `SELECT` writes nothing. -/
def sqliteGetManyOp (st : List Rec) (inchis : List String) :
    List (String × Option String) × List Rec × Nat :=
  if inchis.isEmpty then ([], st, 0)
  else (sqliteGetMany st inchis, st, 1)

/-- `put` (lines 91–107): `INSERT OR REPLACE INTO molecules` then `commit`;
always returns `True`. -/
def sqlitePut (st : List Rec) (inchi content : String) : Bool × List Rec :=
  (true, putA st inchi content)

/-- `delete` (lines 133–148): `DELETE FROM molecules WHERE inchi=?` then
`commit`; returns `cur.rowcount > 0`, i.e. whether any row was removed. -/
def sqliteDelete (st : List Rec) (inchi : String) : Bool × List Rec :=
  (hasKeyA st inchi, eraseA st inchi)

/-- The loop body of SQLite `put_many` (lines 109–131) before the commit:
one `INSERT OR REPLACE` per pair in input order, `count += 1` each time,
working on the connection's uncommitted state.  The first raising item aborts
the loop with the exception pending. -/
def sqlitePutManyGo (st : List Rec) (count : Nat) :
    List Item → Except Unit (Nat × List Rec)
  | [] => Except.ok (count, st)
  | Except.error e :: _ => Except.error e
  | Except.ok p :: rest => sqlitePutManyGo (putA st p.1 p.2) (count + 1) rest

/-- `put_many`: on normal completion `self.conn.commit()` publishes the new
table state and `count` is returned; on any exception the `except` branch runs
`self.conn.rollback()` — restoring the last committed state, i.e. the pre-call
table — and re-raises the exception. -/
def sqlitePutMany (st : List Rec) (items : List Item) :
    Except Unit Nat × List Rec :=
  match sqlitePutManyGo st 0 items with
  | Except.ok (n, st2) => (Except.ok n, st2)
  | Except.error e => (Except.error e, st)

/-! ## Operation sequences and cross-engine observation

The spec's parity property quantifies over finite sequences of `put`, `delete`
and `get` calls issued identically against both engines, observing each call's
return value. -/

/-- One store-interface call. -/
inductive Op where
  | putOp : String → String → Op
  | delOp : String → Op
  | getOp : String → Op
deriving DecidableEq

/-- The value a call returns to the caller: a boolean for `put`/`delete`, a
content-or-not-found for `get`. -/
inductive Obs where
  | flag : Bool → Obs
  | got : Option String → Obs
deriving DecidableEq

/-- One call against the LMDB engine. -/
def lmdbStep (st : List Rec) : Op → List Rec × Obs
  | Op.putOp k c => ((lmdbPut st k c).2, Obs.flag (lmdbPut st k c).1)
  | Op.delOp k => ((lmdbDelete st k).2, Obs.flag (lmdbDelete st k).1)
  | Op.getOp k => ((lmdbGetOp st k).2, Obs.got (lmdbGetOp st k).1)

/-- A call sequence against the LMDB engine: final state and the list of
observed return values, in order. -/
def lmdbRun (st : List Rec) : List Op → List Rec × List Obs
  | [] => (st, [])
  | op :: ops =>
    let s1 := lmdbStep st op
    let rest := lmdbRun s1.1 ops
    (rest.1, s1.2 :: rest.2)

/-- One call against the SQLite engine. -/
def sqliteStep (st : List Rec) : Op → List Rec × Obs
  | Op.putOp k c => ((sqlitePut st k c).2, Obs.flag (sqlitePut st k c).1)
  | Op.delOp k => ((sqliteDelete st k).2, Obs.flag (sqliteDelete st k).1)
  | Op.getOp k => ((sqliteGetOp st k).2, Obs.got (sqliteGetOp st k).1)

/-- A call sequence against the SQLite engine. -/
def sqliteRun (st : List Rec) : List Op → List Rec × List Obs
  | [] => (st, [])
  | op :: ops =>
    let s1 := sqliteStep st op
    let rest := sqliteRun s1.1 ops
    (rest.1, s1.2 :: rest.2)

/-! ## Bulk loaders

A loader input is the directory listing of readable `.xyz` files — modelled as
the list of `(short_key, file_content)` pairs in listing order, the short key
being the file name with the `.xyz` suffix removed — together with the mapping
table `inchikey_to_inchi`.  The table is a Python dict built by successive
`inchikey_to_inchi[inchikey] = inchi` assignments over the CSV rows, so a
repeated short key keeps its last row; `dictGet` on the row list models it. -/

/-- `inchikey_to_inchi.get(inchikey)` followed by the loaders' skip test
`if not inchi: continue`: Python truthiness rejects both a missing entry
(`None`) and an entry whose mapped value is the empty string. -/
def mappedInchi (mapping : List Rec) (inchikey : String) : Option String :=
  match dictGet mapping inchikey with
  | some v => if v = "" then none else some v
  | none => none

/-- Number of files the loaders accept: those whose short key resolves to a
non-empty canonical key. -/
def mappedFileCount (mapping : List Rec) (files : List Rec) : Nat :=
  (files.filter (fun f => (mappedInchi mapping f.1).isSome)).length

/-- Number of files whose short key has a mapping-table entry at all
(the quantity the spec calls files *with* a mapping entry). -/
def fileWithEntryCount (mapping : List Rec) (files : List Rec) : Nat :=
  (files.filter (fun f => (dictGet mapping f.1).isSome)).length

/-- The parameter names of `backend/lmdb.py`'s `LMDBMoleculeStore.__init__`
(line 12): `def __init__(self, db_path, map_size=...)` — this stale copy of
the store class, not the core one, is what `build_lmdb.py` line 7 imports. -/
def backendLmdbInitParams : List String := ["db_path", "map_size"]

/-- The keyword arguments of the store construction at `build_lmdb.py`
line 27: `LMDBMoleculeStore(output_path, map_size=map_size, sync=False,
writemap=True)` (`output_path` is passed positionally as `db_path`). -/
def buildLmdbStoreKwargs : List String := ["map_size", "sync", "writemap"]

/-- Python call semantics: the call succeeds only if every keyword argument
names a parameter of the callee; an unexpected keyword raises `TypeError`. -/
def kwargsAccepted (params kwargs : List String) : Bool :=
  kwargs.all (fun kw => params.contains kw)

/-- The file-processing loop of `build_lmdb.py` `main` (lines 44–95), as
written.  Arguments: remaining files, the `entries` buffer, the `processed`
and `stored` counters.  A mapped file is appended to the buffer and
`processed` is bumped; when the buffer reaches `batchSize` (and again for a
non-empty final buffer) the loop calls `store.put_many(entries)` — but the
`LMDBMoleculeStore` of `backend/lmdb.py` defines `put`, `get_by_inchi`,
`delete` and `close` and no `put_many`, so the attribute lookup raises
`AttributeError` (modelled as `Except.error ()`) and the run aborts.  In the
program as wired this loop is never even reached: store construction raises
first (see `buildLmdbRun`). -/
def buildLmdbGo (mapping : List Rec) (batchSize : Nat) :
    List Rec → List Rec → Nat → Nat → Except Unit (Nat × Nat)
  | [], entries, processed, stored =>
    if entries.isEmpty then Except.ok (processed, stored)
    else Except.error ()
  | f :: rest, entries, processed, stored =>
    match mappedInchi mapping f.1 with
    | none => buildLmdbGo mapping batchSize rest entries processed stored
    | some inchi =>
      let entries2 := entries ++ [(inchi, f.2)]
      if batchSize ≤ entries2.length then Except.error ()
      else buildLmdbGo mapping batchSize rest entries2 (processed + 1) stored

/-- A `build_lmdb.py` run over the given directory listing.  `main` first
constructs the store (line 27); that call passes the keyword arguments `sync`
and `writemap`, which `backend/lmdb.py`'s `__init__` does not accept, so it
raises `TypeError` (modelled as `Except.error ()`) before the mapping is
loaded or any file is enumerated.  Only if construction succeeded would the
file loop run. -/
def buildLmdbRun (mapping : List Rec) (files : List Rec) (batchSize : Nat) :
    Except Unit (Nat × Nat) :=
  if kwargsAccepted backendLmdbInitParams buildLmdbStoreKwargs then
    buildLmdbGo mapping batchSize files [] 0 0
  else Except.error ()

/-- Number of files the loaders reject: short key missing from the mapping
table, or mapped to the empty string. -/
def unmappedFileCount (mapping : List Rec) (files : List Rec) : Nat :=
  (files.filter (fun f => !(mappedInchi mapping f.1).isSome)).length

/-- The result of a SQLite-builder run: the final table, the sum of the
`put_many` return values over all flushed batches (the records *stored*), and
the number of `Warning: No InChI mapping found ... skipping` lines printed. -/
structure SqliteLoadResult where
  table : List Rec
  stored : Nat
  warnings : Nat
deriving DecidableEq

/-- A successful `store.put_many(entries)` call of the SQLite builder: every
pair applies cleanly (`INSERT OR REPLACE` in input order inside one committed
transaction) and the pair count is returned. -/
def flushBatch (st : List Rec) (entries : List Rec) : Nat × List Rec :=
  (entries.length, entries.foldl (fun s p => putA s p.1 p.2) st)

/-- The file-processing loop of `src/moldb/builder/sqlite.py` `main`
(lines 36–83).  An unmapped (or empty-mapped) file prints one warning and is
skipped; a mapped file joins the buffer; the buffer is flushed through
`put_many` when it reaches `batchSize` (10000 in the source) and once more at
end-of-input if non-empty. -/
def builderSqliteGo (mapping : List Rec) (batchSize : Nat) :
    List Rec → List Rec → List Rec → Nat → Nat → SqliteLoadResult
  | [], st, entries, stored, warnings =>
    if entries.isEmpty then ⟨st, stored, warnings⟩
    else
      let w := flushBatch st entries
      ⟨w.2, stored + w.1, warnings⟩
  | f :: rest, st, entries, stored, warnings =>
    match mappedInchi mapping f.1 with
    | none => builderSqliteGo mapping batchSize rest st entries stored (warnings + 1)
    | some inchi =>
      let entries2 := entries ++ [(inchi, f.2)]
      if batchSize ≤ entries2.length then
        let w := flushBatch st entries2
        builderSqliteGo mapping batchSize rest w.2 [] (stored + w.1) warnings
      else builderSqliteGo mapping batchSize rest st entries2 stored warnings

/-- A SQLite-builder run over the given directory listing, starting from an
initialized (empty) table. -/
def builderSqliteRun (mapping : List Rec) (files : List Rec) (batchSize : Nat) :
    SqliteLoadResult :=
  builderSqliteGo mapping batchSize files [] [] 0 0

/-! ## Laws of the record-list primitives -/

theorem findA_append_of_some {xs ys : List Rec} {k : String} {v : String}
    (h : findA xs k = some v) : findA (xs ++ ys) k = some v := by
  induction xs with
  | nil => simp [findA] at h
  | cons p rest ih =>
    simp only [List.cons_append, findA] at h ⊢
    by_cases hp : p.1 = k
    · rw [if_pos hp] at h ⊢
      exact h
    · rw [if_neg hp] at h ⊢
      exact ih h

theorem findA_append_of_none {xs ys : List Rec} {k : String}
    (h : findA xs k = none) : findA (xs ++ ys) k = findA ys k := by
  induction xs with
  | nil => simp [findA]
  | cons p rest ih =>
    simp only [List.cons_append, findA] at h ⊢
    by_cases hp : p.1 = k
    · rw [if_pos hp] at h
      exact absurd h (by simp)
    · rw [if_neg hp] at h ⊢
      exact ih h

theorem findA_eraseA_self (l : List Rec) (k : String) :
    findA (eraseA l k) k = none := by
  induction l with
  | nil => rfl
  | cons p rest ih =>
    by_cases hp : p.1 = k
    · simpa [eraseA, hp] using ih
    · simpa [eraseA, findA, hp] using ih

theorem findA_eraseA_ne {a k : String} (l : List Rec) (h : a ≠ k) :
    findA (eraseA l a) k = findA l k := by
  induction l with
  | nil => rfl
  | cons p rest ih =>
    by_cases hp : p.1 = a
    · have hpk : ¬ p.1 = k := by rw [hp]; exact h
      simp only [eraseA, if_pos hp, findA, if_neg hpk]
      exact ih
    · by_cases hk : p.1 = k
      · simp only [eraseA, if_neg hp, findA, if_pos hk]
      · simp only [eraseA, if_neg hp, findA, if_neg hk]
        exact ih

theorem findA_putA_self (l : List Rec) (k v : String) :
    findA (putA l k v) k = some v := by
  have h := findA_eraseA_self l k
  simpa [putA, findA] using @findA_append_of_none (eraseA l k) [(k, v)] k h

theorem findA_putA_ne {a k : String} (l : List Rec) (v : String) (h : a ≠ k) :
    findA (putA l a v) k = findA l k := by
  unfold putA
  rcases heq : findA (eraseA l a) k with _ | w
  · rw [findA_append_of_none heq, ← findA_eraseA_ne l h, heq]
    simp [findA, h]
  · rw [findA_append_of_some heq, ← findA_eraseA_ne l h, heq]

theorem countKey_eraseA_self (l : List Rec) (k : String) :
    countKey (eraseA l k) k = 0 := by
  induction l with
  | nil => rfl
  | cons p rest ih =>
    by_cases hp : p.1 = k
    · simpa [eraseA, hp] using ih
    · simpa [eraseA, countKey, hp] using ih

theorem countKey_eraseA_ne {a k : String} (l : List Rec) (h : a ≠ k) :
    countKey (eraseA l a) k = countKey l k := by
  induction l with
  | nil => rfl
  | cons p rest ih =>
    by_cases hp : p.1 = a
    · have hpk : ¬ p.1 = k := by rw [hp]; exact h
      simp only [eraseA, if_pos hp, countKey, if_neg hpk, Nat.zero_add]
      exact ih
    · simp only [eraseA, if_neg hp, countKey]
      rw [ih]

theorem countKey_append (xs ys : List Rec) (k : String) :
    countKey (xs ++ ys) k = countKey xs k + countKey ys k := by
  induction xs with
  | nil => simp [countKey]
  | cons p rest ih => simp [countKey, ih]; omega

theorem countKey_putA_self (l : List Rec) (k v : String) :
    countKey (putA l k v) k = 1 := by
  simp [putA, countKey_append, countKey_eraseA_self, countKey]

theorem countKey_putA_ne {a k : String} (l : List Rec) (v : String) (h : a ≠ k) :
    countKey (putA l a v) k = countKey l k := by
  simp [putA, countKey_append, countKey_eraseA_ne l h, countKey, h]

theorem findA_isSome_iff_mem (l : List Rec) (k : String) :
    (findA l k).isSome = true ↔ k ∈ l.map Prod.fst := by
  induction l with
  | nil => simp [findA]
  | cons p rest ih =>
    by_cases hp : p.1 = k
    · simp [findA, hp]
    · simp only [findA, hp, if_false, List.map_cons, List.mem_cons]
      rw [ih]
      constructor
      · exact fun h => Or.inr h
      · rintro (h | h)
        · exact absurd h.symm hp
        · exact h

theorem findA_rowsIn_none {l : List Rec} {k : String} (ks : List String)
    (h : findA l k = none) : findA (rowsIn l ks) k = none := by
  induction l with
  | nil => rfl
  | cons p rest ih =>
    simp only [findA] at h
    by_cases hp : p.1 = k
    · rw [if_pos hp] at h
      exact absurd h (by simp)
    · rw [if_neg hp] at h
      by_cases hm : p.1 ∈ ks
      · simp only [rowsIn, if_pos hm, findA, if_neg hp]
        exact ih h
      · simp only [rowsIn, if_neg hm]
        exact ih h

theorem keysUnique_rowsIn {l : List Rec} (ks : List String)
    (h : keysUnique l = true) : keysUnique (rowsIn l ks) = true := by
  induction l with
  | nil => rfl
  | cons p rest ih =>
    simp only [keysUnique, Bool.and_eq_true, Bool.not_eq_true'] at h
    by_cases hm : p.1 ∈ ks
    · simp only [rowsIn, if_pos hm, keysUnique, Bool.and_eq_true, Bool.not_eq_true']
      refine ⟨?_, ih h.2⟩
      have hnone : findA rest p.1 = none := by
        rcases heq : findA rest p.1 with _ | w
        · rfl
        · rw [hasKeyA, heq] at h
          simp at h
      simp [hasKeyA, findA_rowsIn_none ks hnone]
    · simp only [rowsIn, if_neg hm]
      exact ih h.2

theorem hasKeyA_reverse (l : List Rec) (k : String) :
    hasKeyA l.reverse k = hasKeyA l k := by
  rw [hasKeyA, hasKeyA]
  by_cases hm : k ∈ l.map Prod.fst
  · have h1 : (findA l k).isSome = true := (findA_isSome_iff_mem l k).mpr hm
    have h2 : (findA l.reverse k).isSome = true := by
      rw [findA_isSome_iff_mem, List.map_reverse, List.mem_reverse]
      exact hm
    rw [h1, h2]
  · have h1 : ¬ (findA l k).isSome = true := fun hs => hm ((findA_isSome_iff_mem l k).mp hs)
    have h2 : ¬ (findA l.reverse k).isSome = true := by
      rw [findA_isSome_iff_mem, List.map_reverse, List.mem_reverse]
      exact hm
    rw [Bool.not_eq_true] at h1 h2
    rw [h1, h2]

theorem findA_eq_none_of_hasKeyA_false {l : List Rec} {k : String}
    (h : hasKeyA l k = false) : findA l k = none := by
  rw [hasKeyA] at h
  rcases heq : findA l k with _ | w
  · rfl
  · rw [heq] at h
    simp at h

theorem findA_reverse_of_unique {l : List Rec} (k : String)
    (h : keysUnique l = true) : findA l.reverse k = findA l k := by
  induction l with
  | nil => rfl
  | cons p rest ih =>
    simp only [keysUnique, Bool.and_eq_true, Bool.not_eq_true'] at h
    have ihr := ih h.2
    rw [List.reverse_cons]
    rcases heq : findA rest.reverse k with _ | w
    · have hnr : findA rest k = none := by rw [← ihr, heq]
      rw [findA_append_of_none heq]
      by_cases hp : p.1 = k
      · simp [findA, hp]
      · simp [findA, hp, hnr]
    · have hsr : findA rest k = some w := by rw [← ihr, heq]
      rw [findA_append_of_some heq]
      have hp : ¬ p.1 = k := by
        intro hp
        have hk2 : hasKeyA rest p.1 = true := by
          rw [hasKeyA, hp, hsr]
          rfl
        rw [h.1] at hk2
        simp at hk2
      simp only [findA, if_neg hp, hsr]

theorem dictGet_rowsIn {st : List Rec} {ks : List String} {k : String}
    (hwf : keysUnique st = true) (hk : k ∈ ks) :
    dictGet (rowsIn st ks) k = findA st k := by
  rw [dictGet, findA_reverse_of_unique k (keysUnique_rowsIn ks hwf)]
  induction st with
  | nil => rfl
  | cons p rest ih =>
    simp only [keysUnique, Bool.and_eq_true, Bool.not_eq_true'] at hwf
    by_cases hm : p.1 ∈ ks
    · simp only [rowsIn, if_pos hm, findA]
      by_cases hp : p.1 = k
      · rw [if_pos hp, if_pos hp]
      · rw [if_neg hp, if_neg hp]
        exact ih hwf.2
    · have hp : ¬ p.1 = k := fun hpk => hm (hpk ▸ hk)
      simp only [rowsIn, if_neg hm, findA, if_neg hp]
      exact ih hwf.2

/-! ## Laws of batched writes -/

/-- INSERT OR REPLACE each pair in input order over a starting state: the
common effect of a clean `put_many` loop in either engine. -/
def applyAll (st : List Rec) (pairs : List Rec) : List Rec :=
  pairs.foldl (fun s p => putA s p.1 p.2) st

theorem applyAll_cons (st : List Rec) (p : Rec) (rest : List Rec) :
    applyAll st (p :: rest) = applyAll (putA st p.1 p.2) rest := rfl

theorem lmdbPutManyGo_ok (pairs : List Rec) (st : List Rec) (n : Nat) :
    lmdbPutManyGo st n (pairs.map Except.ok) =
      Except.ok (n + pairs.length, applyAll st pairs) := by
  induction pairs generalizing st n with
  | nil => simp [lmdbPutManyGo, applyAll]
  | cons p rest ih =>
    simp only [List.map_cons, lmdbPutManyGo, applyAll, List.foldl_cons]
    rw [ih (putA st p.1 p.2) (n + 1)]
    simp only [applyAll, List.length_cons]
    congr 2
    omega

theorem sqlitePutManyGo_ok (pairs : List Rec) (st : List Rec) (n : Nat) :
    sqlitePutManyGo st n (pairs.map Except.ok) =
      Except.ok (n + pairs.length, applyAll st pairs) := by
  induction pairs generalizing st n with
  | nil => simp [sqlitePutManyGo, applyAll]
  | cons p rest ih =>
    simp only [List.map_cons, sqlitePutManyGo, applyAll, List.foldl_cons]
    rw [ih (putA st p.1 p.2) (n + 1)]
    simp only [applyAll, List.length_cons]
    congr 2
    omega

theorem findA_applyAll_of_no_key {pairs : List Rec} {k : String}
    (st : List Rec) (h : hasKeyA pairs k = false) :
    findA (applyAll st pairs) k = findA st k := by
  induction pairs generalizing st with
  | nil => rfl
  | cons p rest ih =>
    rw [applyAll_cons]
    rw [hasKeyA] at h
    simp only [findA] at h
    by_cases hp : p.1 = k
    · rw [if_pos hp] at h
      simp at h
    · rw [if_neg hp] at h
      rw [← hasKeyA] at h
      rw [ih (putA st p.1 p.2) h]
      exact findA_putA_ne st p.2 hp

theorem findA_applyAll_of_key {pairs : List Rec} {k : String}
    (st : List Rec) (h : hasKeyA pairs k = true) :
    findA (applyAll st pairs) k = findA pairs.reverse k := by
  induction pairs generalizing st with
  | nil => simp [hasKeyA, findA] at h
  | cons p rest ih =>
    rw [applyAll_cons, List.reverse_cons]
    cases hr : hasKeyA rest k with
    | true =>
      have hsome : (findA rest.reverse k).isSome = true := by
        rw [← hasKeyA, hasKeyA_reverse, hr]
      rcases heq : findA rest.reverse k with _ | w
      · rw [heq] at hsome
        simp at hsome
      · rw [findA_append_of_some heq, ← heq]
        exact ih (putA st p.1 p.2) hr
    | false =>
      have hnone : findA rest.reverse k = none :=
        findA_eq_none_of_hasKeyA_false (by rw [hasKeyA_reverse]; exact hr)
      rw [findA_append_of_none hnone]
      have hp : p.1 = k := by
        rw [hasKeyA] at h
        simp only [findA] at h
        by_cases hp : p.1 = k
        · exact hp
        · rw [if_neg hp, ← hasKeyA, hr] at h
          simp at h
      rw [findA_applyAll_of_no_key (putA st p.1 p.2) hr]
      have h1 : findA (putA st p.1 p.2) k = some p.2 := by
        rw [← hp]
        exact findA_putA_self st p.1 p.2
      have h2 : findA [p] k = some p.2 := by
        simp [findA, hp]
      rw [h1, h2]

theorem putManyGo_err (items : List Item) (st : List Rec) (n : Nat)
    (h : items.any isErr = true) :
    lmdbPutManyGo st n items = Except.error () := by
  induction items generalizing st n with
  | nil => simp at h
  | cons it rest ih =>
    cases it with
    | error e => rfl
    | ok p =>
      simp only [List.any_cons, isErr, Bool.false_or] at h
      simp only [lmdbPutManyGo]
      exact ih (putA st p.1 p.2) (n + 1) h

theorem sqlitePutManyGo_err (items : List Item) (st : List Rec) (n : Nat)
    (h : items.any isErr = true) :
    sqlitePutManyGo st n items = Except.error () := by
  induction items generalizing st n with
  | nil => simp at h
  | cons it rest ih =>
    cases it with
    | error e => rfl
    | ok p =>
      simp only [List.any_cons, isErr, Bool.false_or] at h
      simp only [sqlitePutManyGo]
      exact ih (putA st p.1 p.2) (n + 1) h

/-! ## Laws of operation sequences -/

theorem runs_state_eq (ops : List Op) (st : List Rec) :
    (lmdbRun st ops).1 = (sqliteRun st ops).1 := by
  induction ops generalizing st with
  | nil => rfl
  | cons op rest ih =>
    cases op with
    | putOp k c =>
      simpa [lmdbRun, sqliteRun, lmdbStep, sqliteStep, lmdbPut, sqlitePut] using
        ih (putA st k c)
    | delOp k =>
      simpa [lmdbRun, sqliteRun, lmdbStep, sqliteStep, lmdbDelete, sqliteDelete] using
        ih (eraseA st k)
    | getOp k =>
      simpa [lmdbRun, sqliteRun, lmdbStep, sqliteStep, lmdbGetOp, sqliteGetOp] using
        ih st

theorem countKey_le_one_run (ops : List Op) (st : List Rec)
    (h : ∀ k, countKey st k ≤ 1) :
    ∀ k, countKey (lmdbRun st ops).1 k ≤ 1 := by
  induction ops generalizing st with
  | nil => exact h
  | cons op rest ih =>
    cases op with
    | putOp a c =>
      have hst : ∀ k, countKey (putA st a c) k ≤ 1 := by
        intro k
        by_cases hak : a = k
        · rw [hak, countKey_putA_self]
        · rw [countKey_putA_ne st c hak]
          exact h k
      simpa [lmdbRun, lmdbStep, lmdbPut] using ih (putA st a c) hst
    | delOp a =>
      have hst : ∀ k, countKey (eraseA st a) k ≤ 1 := by
        intro k
        by_cases hak : a = k
        · rw [hak, countKey_eraseA_self]
          omega
        · rw [countKey_eraseA_ne st hak]
          exact h k
      simpa [lmdbRun, lmdbStep, lmdbDelete] using ih (eraseA st a) hst
    | getOp a => simpa [lmdbRun, lmdbStep, lmdbGetOp] using ih st h

theorem keysUnique_append_single {xs : List Rec} {k : String} (v : String)
    (hu : keysUnique xs = true) (hk : hasKeyA xs k = false) :
    keysUnique (xs ++ [(k, v)]) = true := by
  induction xs with
  | nil => simp [keysUnique, hasKeyA, findA]
  | cons p rest ih =>
    simp only [keysUnique, Bool.and_eq_true, Bool.not_eq_true'] at hu
    have hne : ¬ p.1 = k := by
      intro hpk
      have : findA (p :: rest) k = some p.2 := by simp [findA, hpk]
      rw [hasKeyA, this] at hk
      simp at hk
    have hkrest : hasKeyA rest k = false := by
      rw [hasKeyA] at hk ⊢
      simp only [findA, if_neg hne] at hk
      exact hk
    simp only [List.cons_append, keysUnique, Bool.and_eq_true, Bool.not_eq_true']
    refine ⟨?_, ih hu.2 hkrest⟩
    rw [hasKeyA]
    show (findA (rest ++ [(k, v)]) p.1).isSome = false
    rw [findA_append_of_none (findA_eq_none_of_hasKeyA_false hu.1)]
    have hkp : ¬ k = p.1 := fun h => hne h.symm
    simp [findA, hkp]

theorem keysUnique_eraseA {l : List Rec} (a : String)
    (h : keysUnique l = true) : keysUnique (eraseA l a) = true := by
  induction l with
  | nil => rfl
  | cons p rest ih =>
    simp only [keysUnique, Bool.and_eq_true, Bool.not_eq_true'] at h
    by_cases hp : p.1 = a
    · simp only [eraseA, if_pos hp]
      exact ih h.2
    · simp only [eraseA, if_neg hp, keysUnique, Bool.and_eq_true, Bool.not_eq_true']
      refine ⟨?_, ih h.2⟩
      have hap : ¬ a = p.1 := fun hh => hp hh.symm
      rw [hasKeyA, findA_eraseA_ne rest hap, ← hasKeyA]
      exact h.1

theorem keysUnique_putA {l : List Rec} (k v : String)
    (h : keysUnique l = true) : keysUnique (putA l k v) = true := by
  rw [putA]
  refine keysUnique_append_single v (keysUnique_eraseA k h) ?_
  rw [hasKeyA, findA_eraseA_self]
  rfl

theorem keysUnique_run (ops : List Op) (st : List Rec)
    (h : keysUnique st = true) : keysUnique (sqliteRun st ops).1 = true := by
  induction ops generalizing st with
  | nil => exact h
  | cons op rest ih =>
    cases op with
    | putOp a c =>
      simpa [sqliteRun, sqliteStep, sqlitePut] using ih (putA st a c) (keysUnique_putA a c h)
    | delOp a =>
      simpa [sqliteRun, sqliteStep, sqliteDelete] using ih (eraseA st a) (keysUnique_eraseA a h)
    | getOp a => simpa [sqliteRun, sqliteStep, sqliteGetOp] using ih st h

/-! ## Cross-engine parity away from empty contents

The two adapters apply identical state updates, so their divergence is
confined to the LMDB read path's truthiness slip on empty contents: on any
operation sequence whose `put` contents are all non-empty, the engines return
identical observations. -/

/-- Every `put` in the sequence carries non-empty content. -/
def putsNonempty : List Op → Bool
  | [] => true
  | Op.putOp _ c :: rest => (!(c == "")) && putsNonempty rest
  | Op.delOp _ :: rest => putsNonempty rest
  | Op.getOp _ :: rest => putsNonempty rest

/-- No stored value is the empty string. -/
def noEmptyVal (st : List Rec) : Prop := ∀ k, findA st k ≠ some ""

theorem lmdbGet_eq_sqliteGet {st : List Rec} (h : noEmptyVal st) (k : String) :
    lmdbGet st k = sqliteGet st k := by
  rcases heq : findA st k with _ | v
  · simp [lmdbGet, sqliteGet, heq]
  · have hv : ¬ v = "" := fun hv => h k (by rw [heq, hv])
    simp [lmdbGet, sqliteGet, heq, hv]

theorem noEmptyVal_putA {st : List Rec} (h : noEmptyVal st) {c : String}
    (hc : ¬ c = "") (a : String) : noEmptyVal (putA st a c) := by
  intro k
  by_cases hak : a = k
  · rw [hak, findA_putA_self]
    intro hcon
    exact hc (Option.some.inj hcon)
  · rw [findA_putA_ne st c hak]
    exact h k

theorem noEmptyVal_eraseA {st : List Rec} (h : noEmptyVal st) (a : String) :
    noEmptyVal (eraseA st a) := by
  intro k
  by_cases hak : a = k
  · rw [hak, findA_eraseA_self]
    simp
  · rw [findA_eraseA_ne st hak]
    exact h k

theorem crossEngineParity (ops : List Op) (st : List Rec)
    (hops : putsNonempty ops = true) (hst : noEmptyVal st) :
    (lmdbRun st ops).2 = (sqliteRun st ops).2 := by
  induction ops generalizing st with
  | nil => rfl
  | cons op rest ih =>
    cases op with
    | putOp a c =>
      simp only [putsNonempty, Bool.and_eq_true, Bool.not_eq_true'] at hops
      obtain ⟨h1, h2⟩ := hops
      have hc : ¬ c = "" := by
        intro hcc
        rw [hcc] at h1
        simp at h1
      simp only [lmdbRun, sqliteRun, lmdbStep, sqliteStep, lmdbPut, sqlitePut]
      rw [ih (putA st a c) h2 (noEmptyVal_putA hst hc a)]
    | delOp a =>
      simp only [putsNonempty] at hops
      simp only [lmdbRun, sqliteRun, lmdbStep, sqliteStep, lmdbDelete, sqliteDelete]
      rw [ih (eraseA st a) hops (noEmptyVal_eraseA hst a)]
    | getOp a =>
      simp only [putsNonempty] at hops
      simp only [lmdbRun, sqliteRun, lmdbStep, sqliteStep, lmdbGetOp, sqliteGetOp]
      rw [ih st hops hst, lmdbGet_eq_sqliteGet hst a]

theorem lmdbGetMany_eq_map (lst : List Rec) (ks : List String) :
    lmdbGetMany lst ks = ks.map (fun k => (k, lmdbGet lst k)) := by
  induction ks with
  | nil => rfl
  | cons a as ih => simp [lmdbGetMany, ih]

theorem sqliteGetMany_eq_map {sst : List Rec} (ks : List String)
    (hwf : keysUnique sst = true) :
    sqliteGetMany sst ks = ks.map (fun k => (k, sqliteGet sst k)) := by
  cases ks with
  | nil => rfl
  | cons a as =>
    rw [sqliteGetMany]
    simp only [List.isEmpty_cons, if_false, Bool.false_eq_true]
    refine List.map_congr_left ?_
    intro k hk
    rw [dictGet_rowsIn hwf hk]
    rfl

/-! ## The claims -/

/-- Claim C1.  The spec's round-trip property — `put(k, c)` then `get(k)`
returns `c` byte-identically for every content `c`, the empty string
included, in both engines — is broken by the LMDB adapter at `c = ""`:
`get_by_inchi` runs `data.decode() if data else None` and the empty byte
string is falsy, so the stored empty content reads back as not-found, even
though the method's docstring reserves `None` for absent keys.  The SQLite
adapter, which tests the row tuple instead of the content, round-trips the
empty string correctly, as both engines do non-empty contents.  This theorem
evaluates both engines at the failing input. -/
theorem C1_roundtrip_empty_content_eval :
    lmdbGet (lmdbPut [] "k" "").2 "k" = none ∧
    lmdbGet (lmdbPut [] "k" "c").2 "k" = some "c" ∧
    sqliteGet (sqlitePut [] "k" "").2 "k" = some "" := by
  decide

/-- Claim C2.  If processing any element of a `put_many` batch raises, the
whole batch is rolled back — the LMDB write transaction is aborted by the
`with` block, the SQLite connection runs `rollback()` — the error reaches the
caller, and the store state is exactly the pre-call state, in both engines. -/
theorem C2_putMany_atomic_rollback (lst sst : List Rec) (items : List Item)
    (h : items.any isErr = true) :
    (lmdbPutMany lst items).1 = Except.error () ∧
    (lmdbPutMany lst items).2 = lst ∧
    (sqlitePutMany sst items).1 = Except.error () ∧
    (sqlitePutMany sst items).2 = sst := by
  have hl := putManyGo_err items lst 0 h
  have hs := sqlitePutManyGo_err items sst 0 h
  refine ⟨?_, ?_, ?_, ?_⟩ <;> simp [lmdbPutMany, sqlitePutMany, hl, hs]

theorem C2_witness :
    (lmdbPutMany [("old", "v")] [Except.ok ("a", "x"), Except.error ()]).1 =
      Except.error () ∧
    (lmdbPutMany [("old", "v")] [Except.ok ("a", "x"), Except.error ()]).2 =
      [("old", "v")] ∧
    (sqlitePutMany [] [Except.ok ("a", "x"), Except.error ()]).1 =
      Except.error () ∧
    (sqlitePutMany [] [Except.ok ("a", "x"), Except.error ()]).2 = [] :=
  C2_putMany_atomic_rollback [("old", "v")] []
    [Except.ok ("a", "x"), Except.error ()] (by decide)

/-- Claim C3.  `get_many` returns one result per requested key, in request
order, duplicates repeated verbatim: in both engines the output is exactly the
input key list mapped through the engine's single-key `get`, so it has the
same length and pairs each position's key with that key's stored content or a
not-found marker.  The SQLite leg assumes the `PRIMARY KEY` invariant (unique
keys), which the schema enforces on every reachable table. -/
theorem C3_getMany_order (lst sst : List Rec) (ks : List String) (k0 : String)
    (hwf : keysUnique sst = true) :
    lmdbGetMany lst ks = ks.map (fun k => (k, lmdbGet lst k)) ∧
    (lmdbGetMany lst ks).length = ks.length ∧
    sqliteGetMany sst ks = ks.map (fun k => (k, sqliteGet sst k)) ∧
    (sqliteGetMany sst ks).length = ks.length ∧
    (lmdbGet lst k0 = findA lst k0 ∨ lmdbGet lst k0 = none) ∧
    sqliteGet sst k0 = findA sst k0 := by
  have hl := lmdbGetMany_eq_map lst ks
  have hs := sqliteGetMany_eq_map ks hwf
  refine ⟨hl, ?_, hs, ?_, ?_, rfl⟩
  · rw [hl, List.length_map]
  · rw [hs, List.length_map]
  · rcases heq : findA lst k0 with _ | v
    · right
      simp [lmdbGet, heq]
    · by_cases hv : v = ""
      · right
        simp [lmdbGet, heq, hv]
      · left
        simp [lmdbGet, heq, hv]

theorem C3_witness :
    keysUnique [("k1", "A"), ("k2", "B")] = true ∧
    (lmdbGetMany [("k1", "A"), ("k2", "B")] ["k1", "k2", "k1", "missing"] =
      (["k1", "k2", "k1", "missing"].map
        (fun k => (k, lmdbGet [("k1", "A"), ("k2", "B")] k))) ∧
    (lmdbGetMany [("k1", "A"), ("k2", "B")] ["k1", "k2", "k1", "missing"]).length =
      (["k1", "k2", "k1", "missing"] : List String).length ∧
    sqliteGetMany [("k1", "A"), ("k2", "B")] ["k1", "k2", "k1", "missing"] =
      (["k1", "k2", "k1", "missing"].map
        (fun k => (k, sqliteGet [("k1", "A"), ("k2", "B")] k))) ∧
    (sqliteGetMany [("k1", "A"), ("k2", "B")] ["k1", "k2", "k1", "missing"]).length =
      (["k1", "k2", "k1", "missing"] : List String).length ∧
    (lmdbGet [("k1", "A"), ("k2", "B")] "k1" = findA [("k1", "A"), ("k2", "B")] "k1" ∨
      lmdbGet [("k1", "A"), ("k2", "B")] "k1" = none) ∧
    sqliteGet [("k1", "A"), ("k2", "B")] "k1" = findA [("k1", "A"), ("k2", "B")] "k1") :=
  ⟨by decide,
    C3_getMany_order [("k1", "A"), ("k2", "B")] [("k1", "A"), ("k2", "B")]
      ["k1", "k2", "k1", "missing"] "k1" (by decide)⟩

/-- Claim C4.  The spec demands that both engines produce identical
observable results on identical operation sequences; the LMDB adapter's
falsy-bytes test breaks this at empty contents.  Evaluating the two-call
sequence put("k", "") then get("k") from empty stores: the LMDB engine
observes not-found where the SQLite engine observes the empty content, so the
observation traces differ.  (On sequences whose put contents are all
non-empty the traces provably agree — see crossEngineParity above.) -/
theorem C4_parity_divergence_eval :
    (lmdbRun [] [Op.putOp "k" "", Op.getOp "k"]).2 ≠
      (sqliteRun [] [Op.putOp "k" "", Op.getOp "k"]).2 := by
  decide

/-- Claim C5.  Deleting an absent key reports failure in both engines
(LMDB `txn.delete` returns False, SQLite reports `rowcount > 0` false); after
a `put(k, c)` a `delete(k)` reports success, the subsequent `get(k)` is
not-found, and a second `delete(k)` reports failure again. -/
theorem C5_delete_semantics (lst sst : List Rec) (k c : String)
    (hl : findA lst k = none) (hs : findA sst k = none) :
    (lmdbDelete lst k).1 = false ∧
    (sqliteDelete sst k).1 = false ∧
    (lmdbDelete (lmdbPut lst k c).2 k).1 = true ∧
    (sqliteDelete (sqlitePut sst k c).2 k).1 = true ∧
    lmdbGet (lmdbDelete (lmdbPut lst k c).2 k).2 k = none ∧
    sqliteGet (sqliteDelete (sqlitePut sst k c).2 k).2 k = none ∧
    (lmdbDelete (lmdbDelete (lmdbPut lst k c).2 k).2 k).1 = false ∧
    (sqliteDelete (sqliteDelete (sqlitePut sst k c).2 k).2 k).1 = false := by
  refine ⟨?_, ?_, ?_, ?_, ?_, ?_, ?_, ?_⟩
  · simp [lmdbDelete, hasKeyA, hl]
  · simp [sqliteDelete, hasKeyA, hs]
  · simp [lmdbDelete, lmdbPut, hasKeyA, findA_putA_self]
  · simp [sqliteDelete, sqlitePut, hasKeyA, findA_putA_self]
  · simp [lmdbGet, lmdbDelete, lmdbPut, findA_eraseA_self]
  · simp [sqliteGet, sqliteDelete, sqlitePut, findA_eraseA_self]
  · simp [lmdbDelete, lmdbPut, hasKeyA, findA_eraseA_self]
  · simp [sqliteDelete, sqlitePut, hasKeyA, findA_eraseA_self]

theorem C5_witness :
    (lmdbDelete [] "k").1 = false ∧
    (sqliteDelete [] "k").1 = false ∧
    (lmdbDelete (lmdbPut [] "k" "v").2 "k").1 = true ∧
    (sqliteDelete (sqlitePut [] "k" "v").2 "k").1 = true ∧
    lmdbGet (lmdbDelete (lmdbPut [] "k" "v").2 "k").2 "k" = none ∧
    sqliteGet (sqliteDelete (sqlitePut [] "k" "v").2 "k").2 "k" = none ∧
    (lmdbDelete (lmdbDelete (lmdbPut [] "k" "v").2 "k").2 "k").1 = false ∧
    (sqliteDelete (sqliteDelete (sqlitePut [] "k" "v").2 "k").2 "k").1 = false :=
  C5_delete_semantics [] [] "k" "v" rfl rfl

/-- Claim C6, counterexample.  The claim as stated — after `put(k, c1)` then
`put(k, c2)`, `get(k)` returns `c2` in both engines for *every* `c2` — fails
on the LMDB engine at `c2 = ""`: the overwritten empty content reads back as
not-found instead of the empty string. -/
theorem C6_counterexample :
    lmdbGet (lmdbPut (lmdbPut [] "k" "a").2 "k" "").2 "k" ≠ some "" := by
  decide

/-- Claim C6, amended.  After `put(k, c1)` then `put(k, c2)` the store holds
exactly one record for `k`, bound to `c2`, in both engines and for every
`c2`, the empty string included: SQLite `get` returns `c2` for every `c2`,
and LMDB `get` returns `c2` whenever `c2` is non-empty (its read path maps a
stored empty content to not-found — only that last conjunct is restricted).
More generally, after any sequence of put/delete/get operations from an empty
store, every key has at most one current record in either engine — `put` is a
replace-on-conflict upsert, never an append. -/
theorem C6_upsert_one_record (lst sst : List Rec) (k c1 c2 : String)
    (ops : List Op) (k0 : String) :
    sqliteGet (sqlitePut (sqlitePut sst k c1).2 k c2).2 k = some c2 ∧
    countKey (lmdbPut (lmdbPut lst k c1).2 k c2).2 k = 1 ∧
    countKey (sqlitePut (sqlitePut sst k c1).2 k c2).2 k = 1 ∧
    findA (lmdbPut (lmdbPut lst k c1).2 k c2).2 k = some c2 ∧
    findA (sqlitePut (sqlitePut sst k c1).2 k c2).2 k = some c2 ∧
    countKey (lmdbRun [] ops).1 k0 ≤ 1 ∧
    countKey (sqliteRun [] ops).1 k0 ≤ 1 ∧
    (c2 ≠ "" → lmdbGet (lmdbPut (lmdbPut lst k c1).2 k c2).2 k = some c2) := by
  have hbase : ∀ kk, countKey ([] : List Rec) kk ≤ 1 := by
    intro kk
    simp [countKey]
  refine ⟨?_, ?_, ?_, ?_, ?_, ?_, ?_, ?_⟩
  · simp [sqliteGet, sqlitePut, findA_putA_self]
  · simp [lmdbPut, countKey_putA_self]
  · simp [sqlitePut, countKey_putA_self]
  · simp [lmdbPut, findA_putA_self]
  · simp [sqlitePut, findA_putA_self]
  · exact countKey_le_one_run ops [] hbase k0
  · rw [← runs_state_eq]
    exact countKey_le_one_run ops [] hbase k0
  · intro h2
    simp [lmdbGet, lmdbPut, findA_putA_self, h2]

theorem C6_witness :
    sqliteGet (sqlitePut (sqlitePut [] "k" "a").2 "k" "").2 "k" = some "" ∧
    countKey (lmdbPut (lmdbPut [] "k" "a").2 "k" "").2 "k" = 1 ∧
    countKey (sqlitePut (sqlitePut [] "k" "a").2 "k" "").2 "k" = 1 ∧
    findA (lmdbPut (lmdbPut [] "k" "a").2 "k" "").2 "k" = some "" ∧
    countKey (lmdbRun [] [Op.putOp "k" "a", Op.putOp "k" ""]).1 "k" ≤ 1 ∧
    lmdbGet (lmdbPut (lmdbPut [] "k" "a").2 "k" "b").2 "k" = some "b" :=
  ⟨(C6_upsert_one_record [] [] "k" "a" ""
      [Op.putOp "k" "a", Op.putOp "k" ""] "k").1,
   (C6_upsert_one_record [] [] "k" "a" ""
      [Op.putOp "k" "a", Op.putOp "k" ""] "k").2.1,
   (C6_upsert_one_record [] [] "k" "a" ""
      [Op.putOp "k" "a", Op.putOp "k" ""] "k").2.2.1,
   (C6_upsert_one_record [] [] "k" "a" ""
      [Op.putOp "k" "a", Op.putOp "k" ""] "k").2.2.2.1,
   (C6_upsert_one_record [] [] "k" "a" ""
      [Op.putOp "k" "a", Op.putOp "k" ""] "k").2.2.2.2.2.1,
   (C6_upsert_one_record [] [] "k" "a" "b"
      [Op.putOp "k" "a", Op.putOp "k" "b"] "k").2.2.2.2.2.2.2 (by decide)⟩

/-- Claim C7.  A `build_lmdb.py` run stores nothing, at every batch size,
where the claim promises one stored record per mapped file: the store
construction at line 27 passes the keyword arguments `sync` and `writemap`,
which the imported `backend/lmdb.py` class's `__init__(self, db_path,
map_size)` does not accept, so every run raises `TypeError` before a single
file is enumerated — the unexpected-keyword test is itself evaluated in the
last conjunct.  Even were construction fixed, the same class lacks the
`put_many` that every batch flush calls, so the file loop as written would
die with `AttributeError` at its first flush (fourth and fifth conjuncts,
evaluating the loop directly at a mid-run flush and at a final-batch flush). -/
theorem C7_build_lmdb_crash_eval :
    buildLmdbRun [("AAAA", "InChI=1S/CH4")] [("AAAA", "4 atoms")] 50000 =
      Except.error () ∧
    buildLmdbRun [] [("AAAA", "4 atoms")] 50000 = Except.error () ∧
    buildLmdbRun [] [] 1 = Except.error () ∧
    buildLmdbGo [("AAAA", "InChI=1S/CH4")] 1 [("AAAA", "4 atoms")] [] 0 0 =
      Except.error () ∧
    buildLmdbGo [("AAAA", "InChI=1S/CH4")] 50000 [("AAAA", "4 atoms")] [] 0 0 =
      Except.error () ∧
    kwargsAccepted backendLmdbInitParams buildLmdbStoreKwargs = false :=
  ⟨rfl, rfl, rfl, rfl, rfl, rfl⟩

/-- Claim C8.  `get` has no side effects in either engine: the LMDB read
happens in a read-only transaction and the SQLite read is a bare `SELECT`, so
the store state after a point or batch get is the state before it. -/
theorem C8_get_no_side_effects (lst sst : List Rec) (k : String)
    (ks : List String) :
    (lmdbGetOp lst k).2 = lst ∧
    (sqliteGetOp sst k).2 = sst ∧
    (lmdbGetOp lst k).1 = lmdbGet lst k ∧
    (sqliteGetOp sst k).1 = sqliteGet sst k ∧
    (lmdbGetManyOp lst ks).2 = lst ∧
    (sqliteGetManyOp sst ks).2.1 = sst := by
  refine ⟨rfl, rfl, rfl, rfl, rfl, ?_⟩
  rw [sqliteGetManyOp]
  split
  · rfl
  · rfl

/-- Claim C9.  `get_many` on an empty key sequence returns the empty result
sequence and leaves the store untouched in both engines; the SQLite adapter
takes its early-return branch and issues zero queries. -/
theorem C9_getMany_empty (lst sst : List Rec) :
    lmdbGetMany lst [] = [] ∧
    lmdbGetManyOp lst [] = ([], lst) ∧
    sqliteGetMany sst [] = [] ∧
    sqliteGetManyOp sst [] = ([], sst, 0) :=
  ⟨rfl, rfl, rfl, rfl⟩

/-- Claim C10.  A clean `put_many` batch containing duplicate keys applies
its pairs in input order, so the surviving value for a repeated key is the
content of that key's last occurrence, and the returned count is the total
number of pairs, duplicates counted separately, in both engines. -/
theorem C10_putMany_duplicates (lst sst : List Rec) (pairs : List Rec)
    (k : String) (hk : hasKeyA pairs k = true) :
    (lmdbPutMany lst (pairs.map Except.ok)).1 = Except.ok pairs.length ∧
    (sqlitePutMany sst (pairs.map Except.ok)).1 = Except.ok pairs.length ∧
    findA (lmdbPutMany lst (pairs.map Except.ok)).2 k = findA pairs.reverse k ∧
    findA (sqlitePutMany sst (pairs.map Except.ok)).2 k = findA pairs.reverse k := by
  have hl := lmdbPutManyGo_ok pairs lst 0
  have hs := sqlitePutManyGo_ok pairs sst 0
  rw [Nat.zero_add] at hl hs
  refine ⟨?_, ?_, ?_, ?_⟩
  · simp [lmdbPutMany, hl]
  · simp [sqlitePutMany, hs]
  · simp only [lmdbPutMany, hl]
    exact findA_applyAll_of_key lst hk
  · simp only [sqlitePutMany, hs]
    exact findA_applyAll_of_key sst hk

theorem C10_witness :
    (lmdbPutMany [] ([("k", "a"), ("k", "b"), ("j", "c")].map Except.ok)).1 =
      Except.ok ([("k", "a"), ("k", "b"), ("j", "c")] : List Rec).length ∧
    (sqlitePutMany [] ([("k", "a"), ("k", "b"), ("j", "c")].map Except.ok)).1 =
      Except.ok ([("k", "a"), ("k", "b"), ("j", "c")] : List Rec).length ∧
    findA (lmdbPutMany [] ([("k", "a"), ("k", "b"), ("j", "c")].map Except.ok)).2 "k" =
      findA ([("k", "a"), ("k", "b"), ("j", "c")] : List Rec).reverse "k" ∧
    findA (sqlitePutMany [] ([("k", "a"), ("k", "b"), ("j", "c")].map Except.ok)).2 "k" =
      findA ([("k", "a"), ("k", "b"), ("j", "c")] : List Rec).reverse "k" :=
  C10_putMany_duplicates [] [] [("k", "a"), ("k", "b"), ("j", "c")] "k" (by decide)

/-! ## The working relational loader

`builder/sqlite.py` imports the core store, whose `put_many` exists, so its
runs complete; its stored count is the number of accepted files — independent
of the batch size — and its warning count is the number of rejected files. -/

theorem builderSqliteGo_counts (mapping : List Rec) (bs : Nat) (files : List Rec) :
    ∀ (st entries : List Rec) (stored warnings : Nat),
    (builderSqliteGo mapping bs files st entries stored warnings).stored =
      stored + entries.length + mappedFileCount mapping files ∧
    (builderSqliteGo mapping bs files st entries stored warnings).warnings =
      warnings + unmappedFileCount mapping files := by
  induction files with
  | nil =>
    intro st entries stored warnings
    cases entries with
    | nil =>
      simp [builderSqliteGo, mappedFileCount, unmappedFileCount]
    | cons e es =>
      simp [builderSqliteGo, flushBatch, mappedFileCount, unmappedFileCount]
  | cons f rest ih =>
    intro st entries stored warnings
    rcases hm : mappedInchi mapping f.1 with _ | inchi
    · have hgo : builderSqliteGo mapping bs (f :: rest) st entries stored warnings =
          builderSqliteGo mapping bs rest st entries stored (warnings + 1) := by
        simp [builderSqliteGo, hm]
      rw [hgo]
      obtain ⟨ih1, ih2⟩ := ih st entries stored (warnings + 1)
      constructor
      · rw [ih1]
        have hmf : mappedFileCount mapping (f :: rest) = mappedFileCount mapping rest := by
          simp [mappedFileCount, List.filter_cons, hm]
        rw [hmf]
      · rw [ih2]
        have huf : unmappedFileCount mapping (f :: rest) =
            unmappedFileCount mapping rest + 1 := by
          simp [unmappedFileCount, List.filter_cons, hm]
        rw [huf]
        omega
    · have hmf : mappedFileCount mapping (f :: rest) =
          mappedFileCount mapping rest + 1 := by
        simp [mappedFileCount, List.filter_cons, hm]
      have huf : unmappedFileCount mapping (f :: rest) =
          unmappedFileCount mapping rest := by
        simp [unmappedFileCount, List.filter_cons, hm]
      by_cases hbs : bs ≤ (entries ++ [(inchi, f.2)]).length
      · have hgo : builderSqliteGo mapping bs (f :: rest) st entries stored warnings =
            builderSqliteGo mapping bs rest
              (flushBatch st (entries ++ [(inchi, f.2)])).2 []
              (stored + (flushBatch st (entries ++ [(inchi, f.2)])).1) warnings := by
          simp only [builderSqliteGo, hm]
          rw [if_pos hbs]
        rw [hgo]
        obtain ⟨ih1, ih2⟩ :=
          ih (flushBatch st (entries ++ [(inchi, f.2)])).2 []
            (stored + (flushBatch st (entries ++ [(inchi, f.2)])).1) warnings
        refine ⟨?_, by rw [ih2, huf]⟩
        rw [ih1, hmf]
        simp only [flushBatch, List.length_append, List.length_cons,
          List.length_nil]
        omega
      · have hgo : builderSqliteGo mapping bs (f :: rest) st entries stored warnings =
            builderSqliteGo mapping bs rest st (entries ++ [(inchi, f.2)])
              stored warnings := by
          simp only [builderSqliteGo, hm]
          rw [if_neg hbs]
        rw [hgo]
        obtain ⟨ih1, ih2⟩ := ih st (entries ++ [(inchi, f.2)]) stored warnings
        refine ⟨?_, by rw [ih2, huf]⟩
        rw [ih1, hmf]
        simp only [List.length_append, List.length_cons, List.length_nil]
        omega

theorem builderSqlite_counts (mapping files : List Rec) (bs : Nat) :
    (builderSqliteRun mapping files bs).stored = mappedFileCount mapping files ∧
    (builderSqliteRun mapping files bs).warnings = unmappedFileCount mapping files := by
  have h := builderSqliteGo_counts mapping bs files [] [] 0 0
  simpa [builderSqliteRun] using h

theorem builderSqlite_batch_size_independent (mapping files : List Rec)
    (bs1 bs2 : Nat) :
    (builderSqliteRun mapping files bs1).stored =
      (builderSqliteRun mapping files bs2).stored := by
  rw [(builderSqlite_counts mapping files bs1).1,
    (builderSqlite_counts mapping files bs2).1]

/-- A file whose short key *has* a mapping entry, but one whose canonical key
is the empty string, is rejected by the loaders' truthiness test
`if not inchi` and warned about as if unmapped: with mapping table
`{"f": ""}` and one file `f.xyz`, the relational loader stores nothing and
prints one skip warning although every file has a mapping entry. -/
theorem loader_empty_mapping_edge :
    mappedFileCount [("f", "")] [("f", "c")] = 0 ∧
    fileWithEntryCount [("f", "")] [("f", "c")] = 1 ∧
    (builderSqliteRun [("f", "")] [("f", "c")] 10000).stored = 0 ∧
    (builderSqliteRun [("f", "")] [("f", "c")] 10000).warnings = 1 :=
  ⟨rfl, rfl, rfl, rfl⟩

end MolDB
